import Mathlib

/-!
Verification of the Adapt-BPE core pipeline (`train.py` and the companion
tool `apply_merges_with_true_counts.py`).

The Python code represents the corpus as a `collections.Counter` mapping a
serialized word key (token strings joined by the separator `"\u0001"`) to a
positive multiplicity.  The embedding below models:

* the serialization layer (`serialize_word` / `deserialize_word`) at the
  character level, with Python strings rendered as `List Char`;
* the word-count table as a list of (token-sequence, multiplicity) entries.
  Since serialization is a bijection on well-formed keys (proved below),
  table keys are modelled directly as token sequences; `Counter` update
  `c[k] += n` is modelled by `addCount`, which accumulates into the entry
  for an existing key (keys keep their first-insertion position, matching
  Python dict insertion order) or appends a fresh entry.  `Counter`
  equality is pointwise equality of the key → count map, rendered by the
  `tcount` function.
* Python's stable `sorted` is modelled by a stable insertion sort
  (`sortAscBy` / `sortDescBy`): any two stable sorts with the same order
  produce identical output lists.
-/

namespace AdaptBPE

/-- The serialization separator `"\u0001"` (`SEP` in `train.py`). -/
def SEP : Char := Char.ofNat 1

/-- `serialize_word` (train.py line 23): `SEP.join(token_list)`, at the
character level.  Python strings are modelled as `List Char`. -/
def serialize_word : List (List Char) → List Char
  | [] => []
  | [t] => t
  | t :: t' :: rest => t ++ SEP :: serialize_word (t' :: rest)

/-- Helper for `deserialize_word`: the splitting loop of Python's
`str.split(SEP)` on a non-empty string, with an accumulator for the
current (reversed) segment. -/
def splitSepAux : List Char → List Char → List (List Char)
  | [], acc => [acc.reverse]
  | c :: rest, acc =>
    if c = SEP then acc.reverse :: splitSepAux rest [] else splitSepAux rest (c :: acc)

/-- `deserialize_word` (train.py line 27): returns `[]` on the empty key,
otherwise `word_key.split(SEP)`. -/
def deserialize_word (s : List Char) : List (List Char) :=
  if s = [] then [] else splitSepAux s []

/-- The end-of-word marker token `"</w>"`. -/
def EOW : String := "</w>"

/-- A merge rule: an ordered pair (left, right) of token strings. -/
abbrev Merge := String × String

/-- A word type: the token sequence stored (serialized) as one Counter key. -/
abbrev Word := List String

/-- The weighted corpus representation: entries (word type, multiplicity).
Models the Python `Counter` keyed by serialized words; keys are modelled
as token sequences directly because serialization round-trips (see the
serialization theorems below). -/
abbrev WordCountTable := List (Word × Nat)

/-- `Counter` update `c[k] += n`: accumulate into the entry for key `k`
if present (keeping its position, as a Python dict does), else append a
new entry.  Generic in the key type: it is also used for the bigram
`defaultdict(int)` and the merge-usage `Counter`. -/
def addCount {α : Type} [DecidableEq α] : List (α × Nat) → α → Nat → List (α × Nat)
  | [], k, c => [(k, c)]
  | (k', c') :: rest, k, c =>
    if k' = k then (k', c' + c) :: rest else (k', c') :: addCount rest k c

/-- Generic weighted sum over table entries; the common shape of the
corpus measures used below. -/
def wsum {M : Type} [AddCommMonoid M] (g : Word → Nat → M) (t : WordCountTable) : M :=
  (t.map (fun p => g p.1 p.2)).sum

/-- The count a table assigns to one word type (the value `Counter`
equality compares pointwise). -/
def tcount (t : WordCountTable) (w : Word) : Nat :=
  wsum (fun w' c => if w' = w then c else 0) t

/-- Sum of multiplicities over the whole table (the conserved corpus
weight). -/
def totalWeight (t : WordCountTable) : Nat :=
  wsum (fun _ c => c) t

/-- The running corpus size of train.py line 88:
`sum((len(deserialize_word(w)) - 1) * c for w, c in word_counts.items())`,
i.e. tokens excluding one end-of-word marker per word, weighted.  Python
integers are modelled as `Int`. -/
def corpusSize (t : WordCountTable) : Int :=
  wsum (fun w c => ((w.length : Int) - 1) * (c : Int)) t

/-- One left-to-right merge pass over a single word (the `while i <
len(tokens)` loop of `apply_merges_word_counts`, train.py lines 98-108):
returns the rewritten token sequence and the number of (non-overlapping)
replacements performed in this word. -/
def applyWordCount (a b : String) : Word → Word × Nat
  | [] => ([], 0)
  | [t] => ([t], 0)
  | t₁ :: t₂ :: rest =>
    if t₁ = a ∧ t₂ = b then
      ((a ++ b) :: (applyWordCount a b rest).1, (applyWordCount a b rest).2 + 1)
    else
      (t₁ :: (applyWordCount a b (t₂ :: rest)).1, (applyWordCount a b (t₂ :: rest)).2)

/-- The per-word expansion of `undo_merge_word_counts` (train.py lines
138-144): every token equal to the merged symbol `a ++ b` is split back
into `a, b`; all other tokens are kept. -/
def undoWord (a b : String) : Word → Word
  | [] => []
  | t :: rest =>
    if t = a ++ b then a :: b :: undoWord a b rest else t :: undoWord a b rest

/-- Occurrence count of a single token inside a word. -/
def countTok (x : String) : Word → Nat
  | [] => 0
  | t :: rest => (if t = x then 1 else 0) + countTok x rest

/-- One round of `apply_merges_word_counts` for a single merge `(a, b)`
(train.py lines 90-110): rewrite every word type, re-keying the table and
accumulating the weighted replacement count. -/
def applyMergeStep (t : WordCountTable) (a b : String) : WordCountTable × Nat :=
  t.foldl
    (fun acc p =>
      (addCount acc.1 (applyWordCount a b p.1).1 p.2,
       acc.2 + (applyWordCount a b p.1).2 * p.2))
    ([], 0)

/-- The recursive loop of `apply_merges_word_counts` threading the
running corpus size; produces the final table, the `merge_frequencies`
list and the `compression_log` (entries `((a,b), replacements,
corpus_size_after)`). -/
def applyMergesLoop (t : WordCountTable) (size : Int) :
    List Merge → WordCountTable × List (Merge × Nat) × List (Merge × Nat × Int)
  | [] => (t, [], [])
  | m :: rest =>
    let r := applyMergeStep t m.1 m.2
    let size' := size - (r.2 : Int)
    let tailRes := applyMergesLoop r.1 size' rest
    (tailRes.1, (m, r.2) :: tailRes.2.1, (m, r.2, size') :: tailRes.2.2)

/-- `apply_merges_word_counts` (train.py lines 82-121). -/
def apply_merges_word_counts (t : WordCountTable) (merges : List Merge) :
    WordCountTable × List (Merge × Nat) × List (Merge × Nat × Int) :=
  applyMergesLoop t (corpusSize t) merges

/-- `undo_merge_word_counts` (train.py lines 123-148): words containing
the merged token are expanded, others are copied unchanged, re-keying
through the `Counter`. -/
def undo_merge_word_counts (t : WordCountTable) (m : Merge) : WordCountTable :=
  t.foldl
    (fun acc p =>
      if (m.1 ++ m.2) ∈ p.1 then addCount acc (undoWord m.1 m.2 p.1) p.2
      else addCount acc p.1 p.2)
    []

/-- Re-keying a table through a word transformation (the common shape of
the rewriting folds above). -/
def mapTable (f : Word → Word) (t : WordCountTable) : WordCountTable :=
  t.foldl (fun acc p => addCount acc (f p.1) p.2) []

/-! ### Tokenization -/

/-- Whitespace splitting of `text.strip().split()` (which drops empty
segments): accumulator-based scan over the character list. -/
def splitWordsAux : List Char → List Char → List (List Char)
  | [], acc => if acc = [] then [] else [acc.reverse]
  | c :: rest, acc =>
    if c.isWhitespace then
      if acc = [] then splitWordsAux rest [] else acc.reverse :: splitWordsAux rest []
    else splitWordsAux rest (c :: acc)

/-- `text.strip().split()`: the words of a text, empty segments dropped. -/
def splitWords (s : List Char) : List (List Char) := splitWordsAux s []

/-- `tokenize_characters` (train.py lines 11-21): each word becomes its
characters (as one-character tokens) followed by the end-of-word marker.
(The source's `if word:` test is vacuous after `split()`, which never
yields empty words.) -/
def tokenize_characters (text : List Char) : List Word :=
  (splitWords text).map (fun w => w.map (fun c => String.mk [c]) ++ [EOW])

/-- `get_initial_word_counts` (train.py lines 68-71): `Counter` of the
tokenized words. -/
def get_initial_word_counts (ws : List Word) : WordCountTable :=
  ws.foldl (fun acc w => addCount acc w 1) []

/-- The adjacent token pairs of a word (`(tokens[i], tokens[i+1])` for
`i < len(tokens) - 1`). -/
def bigramsOfWord (w : Word) : List Merge := w.zip w.tail

/-- `get_bigram_frequencies_from_counts` (train.py lines 73-80):
weighted bigram counts in a `defaultdict(int)`; entry order is first
insertion order, as for a Python dict. -/
def get_bigram_frequencies_from_counts (t : WordCountTable) : List (Merge × Nat) :=
  t.foldl (fun acc p => (bigramsOfWord p.1).foldl (fun acc2 bg => addCount acc2 bg p.2) acc) []

/-! ### MergeFilter -/

/-- A skipped merge together with its diagnostic reason.  The source
records, for each operand not in `current_tokens`, the message
`"'<tok>' not in current_tokens"`; since each message is determined by
the operand and which side is missing, the reason list is modelled as
one missing-flag per operand. -/
abbrev SkippedMerge := String × String × Bool × Bool

/-- The initial known-token set of `filter_merges` (train.py lines
45-49): every operand anywhere in the list that is a single character
or the end-of-word marker.  Membership is all that is consulted, so the
Python `set` is modelled as a list. -/
def initial_tokens (merges : List Merge) : List String :=
  merges.foldl
    (fun acc p =>
      let acc1 := if p.1.length = 1 ∨ p.1 = EOW then p.1 :: acc else acc
      if p.2.length = 1 ∨ p.2 = EOW then p.2 :: acc1 else acc1)
    []

/-- The main loop of `filter_merges` (train.py lines 51-64), with the
early `break` once the accepted list reaches `num_valid_merges`. -/
def filterLoop (num_valid_merges : Nat) :
    List Merge → List String → List Merge → List SkippedMerge →
    List Merge × List SkippedMerge
  | [], _, valid, skipped => (valid, skipped)
  | (a, b) :: rest, ct, valid, skipped =>
    if a ∈ ct ∧ b ∈ ct then
      let valid' := valid ++ [(a, b)]
      if valid'.length = num_valid_merges then (valid', skipped)
      else filterLoop num_valid_merges rest ((a ++ b) :: ct) valid' skipped
    else
      filterLoop num_valid_merges rest ct valid
        (skipped ++ [(a, b, decide (a ∉ ct), decide (b ∉ ct))])

/-- `filter_merges` (train.py lines 40-66). -/
def filter_merges (merges : List Merge) (num_valid_merges : Nat) :
    List Merge × List SkippedMerge :=
  filterLoop num_valid_merges merges (initial_tokens merges) [] []

/-! ### RefinementEngine -/

/-- One refinement log entry (train.py lines 219-227); the constant
`merge_type = "Replacement"` field is omitted. -/
structure RefineLogEntry where
  number : Nat
  low_merge : Merge
  low_freq : Nat
  high_merge : Merge
  high_freq : Nat
  replacements : Nat
deriving DecidableEq, Repr

/-- Stable insertion of `x` after every earlier element `y` with
`le y x`; folding it left models Python's stable `sorted`. -/
def insertOrd {α : Type} (le : α → α → Bool) (x : α) : List α → List α
  | [] => [x]
  | y :: ys => if le y x then y :: insertOrd le x ys else x :: y :: ys

/-- Stable sort (same output as Python's stable `sorted`). -/
def sortBy {α : Type} (le : α → α → Bool) (l : List α) : List α :=
  l.foldl (fun acc x => insertOrd le x acc) []

/-- `sorted(l, key=lambda x: x[1])`: stable ascending by count. -/
def sortAscByFreq (l : List (Merge × Nat)) : List (Merge × Nat) :=
  sortBy (fun x y => decide (x.2 ≤ y.2)) l

/-- `sorted(l, key=lambda x: x[1], reverse=True)`: stable descending by
count. -/
def sortDescByFreq (l : List (Merge × Nat)) : List (Merge × Nat) :=
  sortBy (fun x y => decide (y.2 ≤ x.2)) l

/-- Python `list.remove` wrapped in `try/except ValueError: pass`
(train.py lines 212-216): drop the first occurrence if present, else
leave the list unchanged. -/
def removeFirst : List Merge → Merge → List Merge
  | [], _ => []
  | x :: rest, m => if x = m then rest else x :: removeFirst rest m

/-- The `while applied_sorted:` loop of `refine_merges_word_counts`
(train.py lines 172-229).  Arguments: the Low queue (`applied_sorted`),
the High queue (`remaining_sorted`), the current table, the running
`final_applied_merges`, the next log ordinal `merge_number`, and the
accumulated log. -/
def refineLoop :
    List (Merge × Nat) → List (Merge × Nat) → WordCountTable → List Merge → Nat →
    List RefineLogEntry → WordCountTable × List RefineLogEntry × List Merge
  | [], _, wc, fam, _, log => (wc, log, fam)
  | (lowm, lowf) :: rest, remaining, wc, fam, num, log =>
    match remaining.dropWhile (fun p => p.2 ≤ lowf) with
    | [] => (wc, log, fam)
    | hi :: rem2 =>
      if 0 < (applyMergeStep (undo_merge_word_counts wc lowm) hi.1.1 hi.1.2).2 then
        refineLoop rest rem2 (applyMergeStep (undo_merge_word_counts wc lowm) hi.1.1 hi.1.2).1
          (removeFirst fam lowm ++ [hi.1]) (num + 1)
          (log ++
            [⟨num, lowm, lowf, hi.1, hi.2,
              (applyMergeStep (undo_merge_word_counts wc lowm) hi.1.1 hi.1.2).2⟩])
      else
        refineLoop rest rem2 wc fam num log

/-- `refine_merges_word_counts` (train.py lines 150-231). -/
def refine_merges_word_counts (t : WordCountTable) (applied_merges : List Merge)
    (remaining_merges : List Merge) (merge_frequencies : List (Merge × Nat)) :
    WordCountTable × List RefineLogEntry × List Merge :=
  let applied_sorted := sortAscByFreq merge_frequencies
  let filtered_bigrams :=
    (get_bigram_frequencies_from_counts t).filter (fun p => p.1 ∈ remaining_merges)
  let remaining_sorted := sortDescByFreq filtered_bigrams
  refineLoop applied_sorted remaining_sorted t applied_merges 1 []

/-! ### Flattener and companion tool -/

/-- `flatten_from_counts` (train.py lines 233-242): strip end-of-word
markers, repeat each word type by its multiplicity, space-join. -/
def flatten_from_counts (t : WordCountTable) : String :=
  String.intercalate " "
    (t.foldl (fun acc p => acc ++ (List.replicate p.2 (p.1.filter (fun tok => tok ≠ EOW))).flatten) [])

/-- `count_final_tokens` (apply_merges_with_true_counts.py lines 75-81):
weighted token count excluding end-of-word markers. -/
def count_final_tokens (t : WordCountTable) : Nat :=
  wsum (fun w c => (w.filter (fun tok => tok ≠ EOW)).length * c) t

/-- `apply_merges` of the companion tool (apply_merges_with_true_counts.py
lines 43-71): same per-merge rewriting as `applyMergeStep`, accumulating
`merge_usage` in a `Counter` keyed by the merge pair. -/
def apply_merges :
    WordCountTable → List Merge → List (Merge × Nat) → WordCountTable × List (Merge × Nat)
  | wc, [], usage => (wc, usage)
  | wc, m :: rest, usage =>
    let r := applyMergeStep wc m.1 m.2
    apply_merges r.1 rest (addCount usage m r.2)

/-- `char_count` of the companion tool (line 105):
`sum(len(line.rstrip("\n")) for line in text.splitlines())`, i.e. the
number of non-line-break characters of the text (zero for an empty
text). -/
def char_count (text : List Char) : Nat :=
  (text.filter (fun c => ¬ (c = '\n' ∨ c = '\r'))).length

/-- The single hard failure the companion pipeline can hit: the Python
`ZeroDivisionError` raised by `cu = (char_count - final_token_count) /
char_count` when `char_count == 0`. -/
inductive PipelineError : Type
  | zeroDivision
deriving DecidableEq, Repr

/-- The computation chain of `main` in apply_merges_with_true_counts.py
(lines 85-134) on in-memory text: character count, tokenization, merge
application, final token count, then the compression-utility division —
which raises `ZeroDivisionError` exactly when the character count is
zero.  The float quotient is modelled as the exact pair (numerator,
denominator). -/
def true_counts_pipeline (text : List Char) (merges : List Merge) :
    Except PipelineError (Nat × Nat × (Int × Nat)) :=
  let cc := char_count text
  let wc := get_initial_word_counts (tokenize_characters text)
  let r := apply_merges wc merges []
  let ftc := count_final_tokens r.1
  if cc = 0 then Except.error PipelineError.zeroDivision
  else Except.ok (cc, ftc, ((cc : Int) - (ftc : Int), cc))

/-- The in-memory computation of `main` in train.py (lines 244-306),
file handling aside: tokenize, count, filter, apply, refine, flatten.
It is a total function: no input, the empty corpus included, makes it
fail.  Returns (flattened output text, final applied merges, refinement
log). -/
def train_core (text : List Char) (all_merges : List Merge) (num_merges : Nat) :
    String × List Merge × List RefineLogEntry :=
  let word_counts := get_initial_word_counts (tokenize_characters text)
  let fm := filter_merges all_merges num_merges
  let applied_merges := fm.1
  let ap := apply_merges_word_counts word_counts applied_merges
  let remaining_merges := all_merges.filter (fun m => m ∉ applied_merges)
  let rf := refine_merges_word_counts ap.1 applied_merges remaining_merges ap.2.1
  (flatten_from_counts rf.1, rf.2.2, rf.2.1)

/-- A table operation: one merge round of `apply_merges_word_counts` or
one `undo_merge_word_counts` call (the operations threaded through the
pipeline, refinement included). -/
inductive TableOp : Type
  | applyM : Merge → TableOp
  | undoM : Merge → TableOp

/-- Run a sequence of apply-merge / undo-merge operations on a table. -/
def runOps : WordCountTable → List TableOp → WordCountTable
  | t, [] => t
  | t, TableOp.applyM m :: rest => runOps (applyMergeStep t m.1 m.2).1 rest
  | t, TableOp.undoM m :: rest => runOps (undo_merge_word_counts t m) rest

/-- Bottom-up constructibility of a merge list from a known-token set:
each merge's operands are members of the set consisting of the initial
tokens together with the merged tokens of the earlier merges of the
list (the guarantee stated for `filter_merges`). -/
def BuildsFrom (known : List String) : List Merge → Prop
  | [] => True
  | (a, b) :: rest => a ∈ known ∧ b ∈ known ∧ BuildsFrom ((a ++ b) :: known) rest

/-- Weighted number of occurrences of the merged token `m.1 ++ m.2`
across the table: exactly the number of expansions
`undo_merge_word_counts` performs for `m`. -/
def mergedOccurrences (m : Merge) (t : WordCountTable) : Nat :=
  wsum (fun w c => countTok (m.1 ++ m.2) w * c) t

/-- Occurrences of a merge in a merge list. -/
def countMerge (m : Merge) (l : List Merge) : Nat :=
  l.countP (fun x => decide (x = m))

/-- Number of log entries recording `m` as the removed low merge. -/
def lowCount (m : Merge) (log : List RefineLogEntry) : Nat :=
  log.countP (fun e => decide (e.low_merge = m))

/-! ## Serialization lemmas -/

theorem splitSepAux_append (t : List Char) (hsep : SEP ∉ t) :
    ∀ (s acc : List Char), splitSepAux (t ++ s) acc = splitSepAux s (t.reverse ++ acc) := by
  induction t with
  | nil => intro s acc; simp
  | cons c t' ih =>
    intro s acc
    have hc : c ≠ SEP := fun h => hsep (h ▸ List.mem_cons_self c t')
    have ht' : SEP ∉ t' := fun h => hsep (List.mem_cons_of_mem c h)
    simp only [List.cons_append, splitSepAux, if_neg hc, List.append_eq]
    rw [ih ht' s (c :: acc)]
    simp

theorem serialize_word_ne_nil :
    ∀ (tokens : List (List Char)), tokens ≠ [] → (∀ t ∈ tokens, t ≠ []) →
      serialize_word tokens ≠ []
  | [], h, _ => absurd rfl h
  | [t], _, hall => by
    simpa [serialize_word] using hall t (List.mem_singleton_self t)
  | _t :: t' :: _rest, _, _ => by
    simp [serialize_word]

theorem deserialize_serialize :
    ∀ (tokens : List (List Char)), tokens ≠ [] →
      (∀ t ∈ tokens, t ≠ []) → (∀ t ∈ tokens, SEP ∉ t) →
      deserialize_word (serialize_word tokens) = tokens
  | [], h, _, _ => absurd rfl h
  | [t], _, hne, hsep => by
    have ht : t ≠ [] := hne t (List.mem_singleton_self t)
    have hts : SEP ∉ t := hsep t (List.mem_singleton_self t)
    have : splitSepAux (t ++ []) [] = splitSepAux [] (t.reverse ++ []) :=
      splitSepAux_append t hts [] []
    simp only [List.append_nil] at this
    simp [deserialize_word, serialize_word, ht, this, splitSepAux]
  | t :: t' :: rest, _, hne, hsep => by
    have hts : SEP ∉ t := hsep t (List.mem_cons_self t _)
    have hne' : ∀ x ∈ t' :: rest, x ≠ [] := fun x hx => hne x (List.mem_cons_of_mem t hx)
    have hsep' : ∀ x ∈ t' :: rest, SEP ∉ x := fun x hx => hsep x (List.mem_cons_of_mem t hx)
    have ihres : deserialize_word (serialize_word (t' :: rest)) = t' :: rest :=
      deserialize_serialize (t' :: rest) (List.cons_ne_nil t' rest) hne' hsep'
    have hser : serialize_word (t' :: rest) ≠ [] :=
      serialize_word_ne_nil (t' :: rest) (List.cons_ne_nil t' rest) hne'
    have hsplit : splitSepAux (serialize_word (t' :: rest)) [] = t' :: rest := by
      simpa [deserialize_word, hser] using ihres
    have hwhole : serialize_word (t :: t' :: rest) = t ++ SEP :: serialize_word (t' :: rest) :=
      rfl
    have hne0 : t ++ SEP :: serialize_word (t' :: rest) ≠ [] := by simp
    rw [hwhole]
    simp only [deserialize_word, if_neg hne0]
    rw [splitSepAux_append t hts (SEP :: serialize_word (t' :: rest)) []]
    simp [splitSepAux, hsplit]

/-! ## Weighted-sum and table lemmas -/

theorem wsum_nil {M : Type} [AddCommMonoid M] (g : Word → Nat → M) :
    wsum g ([] : WordCountTable) = 0 := rfl

theorem wsum_cons {M : Type} [AddCommMonoid M] (g : Word → Nat → M)
    (p : Word × Nat) (t : WordCountTable) :
    wsum g (p :: t) = g p.1 p.2 + wsum g t := by
  simp [wsum]

theorem wsum_addCount {M : Type} [AddCommMonoid M] (g : Word → Nat → M)
    (hadd : ∀ w c c', g w (c + c') = g w c + g w c') :
    ∀ (t : WordCountTable) (w : Word) (c : Nat),
      wsum g (addCount t w c) = wsum g t + g w c := by
  intro t
  induction t with
  | nil => intro w c; simp [addCount, wsum]
  | cons p rest ih =>
    intro w c
    obtain ⟨k', c'⟩ := p
    by_cases h : k' = w
    · simp only [addCount, if_pos h]
      rw [wsum_cons, wsum_cons]
      simp only [h, hadd]
      abel
    · simp only [addCount, if_neg h]
      rw [wsum_cons, wsum_cons, ih]
      abel

theorem wsum_foldl_addCount {M : Type} [AddCommMonoid M] (g : Word → Nat → M)
    (hadd : ∀ w c c', g w (c + c') = g w c + g w c') (f : Word → Word) :
    ∀ (t : WordCountTable) (acc : WordCountTable),
      wsum g (t.foldl (fun a p => addCount a (f p.1) p.2) acc) =
        wsum g acc + wsum (fun w c => g (f w) c) t := by
  intro t
  induction t with
  | nil => intro acc; simp [wsum]
  | cons p rest ih =>
    intro acc
    simp only [List.foldl_cons]
    rw [ih, wsum_addCount g hadd, wsum_cons]
    abel

theorem wsum_mapTable {M : Type} [AddCommMonoid M] (g : Word → Nat → M)
    (hadd : ∀ w c c', g w (c + c') = g w c + g w c') (f : Word → Word) (t : WordCountTable) :
    wsum g (mapTable f t) = wsum (fun w c => g (f w) c) t := by
  unfold mapTable
  rw [wsum_foldl_addCount g hadd f t [], wsum_nil, zero_add]

theorem wsum_congr {M : Type} [AddCommMonoid M] {g g' : Word → Nat → M}
    {t : WordCountTable} (h : ∀ p ∈ t, g p.1 p.2 = g' p.1 p.2) :
    wsum g t = wsum g' t := by
  unfold wsum
  congr 1
  exact List.map_congr_left h

/-- The table component of one merge round is a re-keying of the input
table through the per-word rewriting. -/
theorem applyMergeStep_spec (a b : String) :
    ∀ (t : WordCountTable) (acc : WordCountTable × Nat),
      t.foldl
        (fun acc p =>
          (addCount acc.1 (applyWordCount a b p.1).1 p.2,
           acc.2 + (applyWordCount a b p.1).2 * p.2)) acc =
      (t.foldl (fun accT p => addCount accT (applyWordCount a b p.1).1 p.2) acc.1,
       acc.2 + wsum (fun w c => (applyWordCount a b w).2 * c) t) := by
  intro t
  induction t with
  | nil => intro acc; simp [wsum]
  | cons p rest ih =>
    intro acc
    simp only [List.foldl_cons]
    rw [ih, wsum_cons]
    exact congrArg _ (by omega)

theorem applyMergeStep_fst (t : WordCountTable) (a b : String) :
    (applyMergeStep t a b).1 = mapTable (fun w => (applyWordCount a b w).1) t := by
  unfold applyMergeStep mapTable
  rw [applyMergeStep_spec a b t ([], 0)]

theorem applyMergeStep_snd (t : WordCountTable) (a b : String) :
    (applyMergeStep t a b).2 = wsum (fun w c => (applyWordCount a b w).2 * c) t := by
  unfold applyMergeStep
  rw [applyMergeStep_spec a b t ([], 0)]
  simp

theorem undoWord_of_not_mem (a b : String) :
    ∀ (w : Word), (a ++ b) ∉ w → undoWord a b w = w
  | [], _ => rfl
  | t :: rest, h => by
    have ht : t ≠ a ++ b := fun he => h (he ▸ List.mem_cons_self t rest)
    have hrest : (a ++ b) ∉ rest := fun hm => h (List.mem_cons_of_mem t hm)
    simp [undoWord, ht, undoWord_of_not_mem a b rest hrest]

theorem undo_eq_mapTable (m : Merge) :
    ∀ (t : WordCountTable),
      undo_merge_word_counts t m = mapTable (undoWord m.1 m.2) t := by
  have hbody : ∀ (t : WordCountTable) (acc : WordCountTable),
      t.foldl
        (fun acc p =>
          if (m.1 ++ m.2) ∈ p.1 then addCount acc (undoWord m.1 m.2 p.1) p.2
          else addCount acc p.1 p.2) acc =
      t.foldl (fun acc p => addCount acc (undoWord m.1 m.2 p.1) p.2) acc := by
    intro t
    induction t with
    | nil => intro acc; rfl
    | cons p rest ih =>
      intro acc
      simp only [List.foldl_cons]
      by_cases h : (m.1 ++ m.2) ∈ p.1
      · rw [if_pos h, ih]
      · rw [if_neg h, undoWord_of_not_mem m.1 m.2 p.1 h, ih]
  intro t
  unfold undo_merge_word_counts mapTable
  exact hbody t []

/-! ## Word-level lemmas -/

theorem applyWordCount_length (a b : String) :
    ∀ (w : Word), ((applyWordCount a b w).1).length + (applyWordCount a b w).2 = w.length
  | [] => by simp [applyWordCount]
  | [t] => by simp [applyWordCount]
  | t₁ :: t₂ :: rest => by
    by_cases h : t₁ = a ∧ t₂ = b
    · have ih := applyWordCount_length a b rest
      simp only [applyWordCount, if_pos h, List.length_cons]
      omega
    · have ih := applyWordCount_length a b (t₂ :: rest)
      simp only [applyWordCount, if_neg h, List.length_cons] at ih ⊢
      omega

theorem undoWord_length (a b : String) :
    ∀ (w : Word), (undoWord a b w).length = w.length + countTok (a ++ b) w
  | [] => by simp [undoWord, countTok]
  | t :: rest => by
    have ih := undoWord_length a b rest
    by_cases h : t = a ++ b
    · simp only [undoWord, countTok, if_pos h, List.length_cons]
      omega
    · simp only [undoWord, countTok, if_neg h, List.length_cons]
      omega

/-- Per-word inverse property: on a word not containing the merged
token, undoing right after applying restores the word. -/
theorem undoWord_applyWordCount (a b : String) :
    ∀ (w : Word), (a ++ b) ∉ w → undoWord a b ((applyWordCount a b w).1) = w
  | [], _ => rfl
  | [t], h => by
    have ht : t ≠ a ++ b := fun he => h (he ▸ List.mem_cons_self t [])
    simp [applyWordCount, undoWord, ht]
  | t₁ :: t₂ :: rest, h => by
    have ht₁ : t₁ ≠ a ++ b := fun he => h (he ▸ List.mem_cons_self t₁ (t₂ :: rest))
    have hrest : (a ++ b) ∉ rest := fun hm =>
      h (List.mem_cons_of_mem t₁ (List.mem_cons_of_mem t₂ hm))
    have htail : (a ++ b) ∉ t₂ :: rest := fun hm => h (List.mem_cons_of_mem t₁ hm)
    by_cases hc : t₁ = a ∧ t₂ = b
    · have ih := undoWord_applyWordCount a b rest hrest
      simp only [applyWordCount, if_pos hc, undoWord, if_pos rfl, ih]
      rw [hc.1, hc.2]
      simp
    · have ih := undoWord_applyWordCount a b (t₂ :: rest) htail
      simp only [applyWordCount, if_neg hc, undoWord, if_neg ht₁, ih]

/-- **C10** — serialization round-trip: for every non-empty list of
non-empty tokens none of which contains the separator character U+0001,
`deserialize_word (serialize_word tokens) = tokens`; and
`deserialize_word` on the empty string returns the empty list. -/
theorem C10_serialization_round_trip (tokens : List (List Char))
    (hnil : tokens ≠ []) (hne : ∀ t ∈ tokens, t ≠ []) (hsep : ∀ t ∈ tokens, SEP ∉ t) :
    deserialize_word (serialize_word tokens) = tokens ∧ deserialize_word [] = [] :=
  ⟨deserialize_serialize tokens hnil hne hsep, rfl⟩

/-- Witness for C10 at the concrete token list `["a", "b</w>"]`
(characters `['a']` and `['b','<','/','w','>']`). -/
theorem C10_serialization_round_trip_witness :
    deserialize_word (serialize_word [['a'], ['b', '<', '/', 'w', '>']]) =
      [['a'], ['b', '<', '/', 'w', '>']] ∧ deserialize_word [] = [] :=
  C10_serialization_round_trip [['a'], ['b', '<', '/', 'w', '>']]
    (by decide) (by decide) (by decide)

/-! ## Weight conservation -/

theorem totalWeight_applyMergeStep (t : WordCountTable) (a b : String) :
    totalWeight (applyMergeStep t a b).1 = totalWeight t := by
  rw [applyMergeStep_fst]
  unfold totalWeight
  rw [wsum_mapTable _ (fun _ _ _ => rfl)]

theorem totalWeight_undo (t : WordCountTable) (m : Merge) :
    totalWeight (undo_merge_word_counts t m) = totalWeight t := by
  rw [undo_eq_mapTable]
  unfold totalWeight
  rw [wsum_mapTable _ (fun _ _ _ => rfl)]

theorem totalWeight_runOps :
    ∀ (ops : List TableOp) (t : WordCountTable), totalWeight (runOps t ops) = totalWeight t
  | [], _ => rfl
  | TableOp.applyM m :: rest, t => by
    rw [runOps, totalWeight_runOps rest, totalWeight_applyMergeStep]
  | TableOp.undoM m :: rest, t => by
    rw [runOps, totalWeight_runOps rest, totalWeight_undo]

theorem totalWeight_applyMergesLoop :
    ∀ (ms : List Merge) (t : WordCountTable) (size : Int),
      totalWeight (applyMergesLoop t size ms).1 = totalWeight t
  | [], _, _ => rfl
  | m :: rest, t, size => by
    simp only [applyMergesLoop]
    rw [totalWeight_applyMergesLoop rest, totalWeight_applyMergeStep]

theorem totalWeight_refineLoop :
    ∀ (asr rem : List (Merge × Nat)) (wc : WordCountTable) (fam : List Merge) (num : Nat)
      (log : List RefineLogEntry),
      totalWeight (refineLoop asr rem wc fam num log).1 = totalWeight wc
  | [], _, _, _, _, _ => rfl
  | (lowm, lowf) :: rest, rem, wc, fam, num, log => by
    rw [refineLoop]
    split
    · rfl
    · split
      · rw [totalWeight_refineLoop rest, totalWeight_applyMergeStep, totalWeight_undo]
      · rw [totalWeight_refineLoop rest]

/-- **C1** — weight conservation: the sum of multiplicities over the
table is invariant under every sequence of apply-merge and undo-merge
operations, under `apply_merges_word_counts` for any merge list, under a
single `undo_merge_word_counts`, and under full refinement (all steps
taken inside `refine_merges_word_counts`). -/
theorem C1_weight_conservation (t : WordCountTable) (ops : List TableOp)
    (ms : List Merge) (m : Merge) (applied remaining : List Merge)
    (freqs : List (Merge × Nat)) :
    totalWeight (runOps t ops) = totalWeight t ∧
    totalWeight (apply_merges_word_counts t ms).1 = totalWeight t ∧
    totalWeight (undo_merge_word_counts t m) = totalWeight t ∧
    totalWeight (refine_merges_word_counts t applied remaining freqs).1 = totalWeight t :=
  ⟨totalWeight_runOps ops t, totalWeight_applyMergesLoop ms t (corpusSize t),
   totalWeight_undo t m, totalWeight_refineLoop _ _ t applied 1 []⟩

/-! ## Undo as left inverse of apply (C2) -/

theorem tcount_additive (w : Word) (w' : Word) (c c' : Nat) :
    (if w' = w then c + c' else 0) =
      (if w' = w then c else 0) + (if w' = w then c' else 0) := by
  split <;> simp

/-- **C2** — undo is a left inverse of apply for an isolated merge: if no
word type of the table contains the merged token `a ++ b`, then undoing
`(a, b)` after applying it restores every pointwise count (the notion of
equality `Counter.__eq__` uses). -/
theorem C2_undo_left_inverse (t : WordCountTable) (a b : String)
    (h : ∀ p ∈ t, (a ++ b) ∉ p.1) (w : Word) :
    tcount (undo_merge_word_counts (apply_merges_word_counts t [(a, b)]).1 (a, b)) w =
      tcount t w := by
  have happ : (apply_merges_word_counts t [(a, b)]).1 = (applyMergeStep t a b).1 := rfl
  rw [happ, undo_eq_mapTable, applyMergeStep_fst]
  unfold tcount
  rw [wsum_mapTable _ (fun _ _ _ => by split <;> simp),
    wsum_mapTable _ (fun _ _ _ => by split <;> simp)]
  exact wsum_congr (fun p hp => by rw [undoWord_applyWordCount a b p.1 (h p hp)])

/-- Witness for C2: table {"abc</w>": 2, "ba</w>": 1}, merge ("a","b"),
checked at the word type produced by the merge. -/
theorem C2_undo_left_inverse_witness :
    tcount
      (undo_merge_word_counts
        (apply_merges_word_counts [(["a", "b", "c", EOW], 2), (["b", "a", EOW], 1)]
          [("a", "b")]).1 ("a", "b"))
      ["a", "b", "c", EOW] =
    tcount [(["a", "b", "c", EOW], 2), (["b", "a", EOW], 1)] ["a", "b", "c", EOW] :=
  C2_undo_left_inverse [(["a", "b", "c", EOW], 2), (["b", "a", EOW], 1)] "a" "b"
    (by decide) ["a", "b", "c", EOW]

/-! ## Monotonic non-increase (C3) -/

theorem wsum_int_sub (g₁ g₂ : Word → Nat → Int) :
    ∀ (t : WordCountTable),
      wsum (fun w c => g₁ w c - g₂ w c) t = wsum g₁ t - wsum g₂ t := by
  intro t
  induction t with
  | nil => simp [wsum]
  | cons p rest ih =>
    rw [wsum_cons, wsum_cons, wsum_cons, ih]
    ring

theorem wsum_natCast (g : Word → Nat → Nat) (t : WordCountTable) :
    ((wsum g t : Nat) : Int) = wsum (fun w c => ((g w c : Nat) : Int)) t := by
  unfold wsum
  rw [Nat.cast_list_sum, List.map_map]
  rfl

theorem corpusSize_additive (w : Word) (c c' : Nat) :
    ((w.length : Int) - 1) * ((c + c' : Nat) : Int) =
      ((w.length : Int) - 1) * (c : Int) + ((w.length : Int) - 1) * (c' : Int) := by
  push_cast
  ring

theorem corpusSize_applyMergeStep (t : WordCountTable) (a b : String) :
    corpusSize (applyMergeStep t a b).1 =
      corpusSize t - ((applyMergeStep t a b).2 : Int) := by
  rw [applyMergeStep_fst, applyMergeStep_snd]
  unfold corpusSize
  rw [wsum_mapTable _ (fun w c c' => corpusSize_additive _ c c'), wsum_natCast]
  have hpt :
      wsum (fun w c => (((applyWordCount a b w).1.length : Int) - 1) * (c : Int)) t =
      wsum (fun w c =>
        ((w.length : Int) - 1) * (c : Int) - (((applyWordCount a b w).2 * c : Nat) : Int)) t := by
    refine wsum_congr (fun p _ => ?_)
    have hl := applyWordCount_length a b p.1
    have hcast : ((applyWordCount a b p.1).1.length : Int) =
        (p.1.length : Int) - ((applyWordCount a b p.1).2 : Int) := by
      omega
    rw [hcast]
    push_cast
    ring
  rw [hpt, wsum_int_sub]

/-- **C3** — monotonic non-increase: a single merge round never
increases the weighted token count; it decreases it by exactly the
replacement count this round reports, and that count with the resulting
size is what `merge_frequencies` and the compression log record for the
merge. -/
theorem C3_monotonic_non_increase (t : WordCountTable) (a b : String) (rest : List Merge) :
    corpusSize (applyMergeStep t a b).1 =
      corpusSize t - ((applyMergeStep t a b).2 : Int) ∧
    corpusSize (applyMergeStep t a b).1 ≤ corpusSize t ∧
    (apply_merges_word_counts t ((a, b) :: rest)).2.1.head? =
      some ((a, b), (applyMergeStep t a b).2) ∧
    (apply_merges_word_counts t ((a, b) :: rest)).2.2.head? =
      some ((a, b), (applyMergeStep t a b).2,
        corpusSize t - ((applyMergeStep t a b).2 : Int)) := by
  refine ⟨corpusSize_applyMergeStep t a b, ?_, rfl, rfl⟩
  rw [corpusSize_applyMergeStep t a b]
  have : (0 : Int) ≤ ((applyMergeStep t a b).2 : Int) := Int.natCast_nonneg _
  omega

/-! ## MergeFilter (C5, C8) -/

/-- The accepted list grows by a suffix that is bottom-up constructible
from the current known-token set. -/
theorem filterLoop_builds (N : Nat) :
    ∀ (merges : List Merge) (ct : List String) (valid : List Merge)
      (skipped : List SkippedMerge),
      ∃ Δ, (filterLoop N merges ct valid skipped).1 = valid ++ Δ ∧ BuildsFrom ct Δ
  | [], ct, valid, skipped => ⟨[], by simp [filterLoop], trivial⟩
  | (a, b) :: rest, ct, valid, skipped => by
    rw [filterLoop]
    by_cases hab : a ∈ ct ∧ b ∈ ct
    · rw [if_pos hab]
      by_cases hlen : (valid ++ [(a, b)]).length = N
      · rw [if_pos hlen]
        exact ⟨[(a, b)], rfl, hab.1, hab.2, trivial⟩
      · rw [if_neg hlen]
        obtain ⟨Δ, hres, hb⟩ :=
          filterLoop_builds N rest ((a ++ b) :: ct) (valid ++ [(a, b)]) skipped
        refine ⟨(a, b) :: Δ, ?_, hab.1, hab.2, hb⟩
        rw [hres, List.append_assoc]
        rfl
    · rw [if_neg hab]
      exact filterLoop_builds N rest ct valid
        (skipped ++ [(a, b, decide (a ∉ ct), decide (b ∉ ct))])

/-- **C5** — filter reconstructibility guarantee: every merge accepted by
`filter_merges` has both operands in the set consisting of the atomic
tokens (single characters or the end-of-word marker appearing as
operands anywhere in the pretrained list) together with the merged
tokens of the earlier accepted merges. -/
theorem C5_filter_reconstructible (merges : List Merge) (N : Nat) :
    BuildsFrom (initial_tokens merges) (filter_merges merges N).1 := by
  obtain ⟨Δ, hres, hb⟩ := filterLoop_builds N merges (initial_tokens merges) [] []
  unfold filter_merges
  rw [hres, List.nil_append]
  exact hb

/-- **C8 counterexample** — the claim asserts that on the pretrained list
`[("x","y")]` the filter skips the merge with both operands flagged
missing and accepts nothing.  In the code the known-token set is built
from the *merge list's* operands, and `"x"`, `"y"` are single
characters, hence atomic: the merge is accepted and nothing is skipped,
regardless of any corpus table. -/
theorem C8_counterexample :
    ¬ ((filter_merges [("x", "y")] 1).1 = [] ∧
        (filter_merges [("x", "y")] 1).2 = [("x", "y", true, true)]) ∧
    filter_merges [("x", "y")] 1 = ([("x", "y")], []) := by
  decide

/-- **C8 as amended** — for a pretrained merge list whose only merge has
operands that are neither single characters nor the end-of-word marker
(here `("xz","yw")`), `filter_merges` records the merge as skipped with
both operands flagged missing and returns an empty accepted list. -/
theorem C8_amended_unconstructible_skip :
    filter_merges [("xz", "yw")] 1 = ([], [("xz", "yw", true, true)]) := by
  rfl

/-! ## Refinement: hard early termination (C6) -/

/-- **C6** — refinement hard early termination: whenever discarding the
High-queue entries with frequency at most the current low merge's usage
empties the queue, the whole loop returns immediately: the table, the
log and the applied-merge list come back unchanged, and the remaining
Low entries are never examined. -/
theorem C6_hard_early_termination (lowm : Merge) (lowf : Nat)
    (rest rem : List (Merge × Nat)) (wc : WordCountTable) (fam : List Merge)
    (num : Nat) (log : List RefineLogEntry)
    (h : rem.dropWhile (fun p => p.2 ≤ lowf) = []) :
    refineLoop ((lowm, lowf) :: rest) rem wc fam num log = (wc, log, fam) := by
  rw [refineLoop, h]

/-- Witness for C6: a High queue whose only entry has frequency 3 ≤ the
low merge's usage 5, with two further Low entries left unprocessed. -/
theorem C6_hard_early_termination_witness :
    refineLoop [(("a", "b"), 5), (("c", "d"), 2), (("e", "f"), 1)] [(("g", "h"), 3)]
      [(["q", EOW], 1)] [("a", "b"), ("c", "d"), ("e", "f")] 1 [] =
      ([(["q", EOW], 1)], [], [("a", "b"), ("c", "d"), ("e", "f")]) :=
  C6_hard_early_termination ("a", "b") 5 [(("c", "d"), 2), (("e", "f"), 1)]
    [(("g", "h"), 3)] [(["q", EOW], 1)] [("a", "b"), ("c", "d"), ("e", "f")] 1 []
    (by decide)

/-! ## Refinement swap accounting (C7) -/

theorem wsum_int_add (g₁ g₂ : Word → Nat → Int) :
    ∀ (t : WordCountTable),
      wsum (fun w c => g₁ w c + g₂ w c) t = wsum g₁ t + wsum g₂ t := by
  intro t
  induction t with
  | nil => simp [wsum]
  | cons p rest ih =>
    rw [wsum_cons, wsum_cons, wsum_cons, ih]
    ring

/-- Undoing a merge grows the corpus size by exactly the weighted number
of occurrences of the merged token it expands. -/
theorem corpusSize_undo (t : WordCountTable) (m : Merge) :
    corpusSize (undo_merge_word_counts t m) =
      corpusSize t + (mergedOccurrences m t : Int) := by
  rw [undo_eq_mapTable]
  unfold corpusSize mergedOccurrences
  rw [wsum_mapTable _ (fun w c c' => corpusSize_additive _ c c'), wsum_natCast]
  have hpt :
      wsum (fun w c => (((undoWord m.1 m.2 w).length : Int) - 1) * (c : Int)) t =
      wsum (fun w c =>
        ((w.length : Int) - 1) * (c : Int) + ((countTok (m.1 ++ m.2) w * c : Nat) : Int)) t := by
    refine wsum_congr (fun p _ => ?_)
    have hl := undoWord_length m.1 m.2 p.1
    have hcast : ((undoWord m.1 m.2 p.1).length : Int) =
        (p.1.length : Int) + (countTok (m.1 ++ m.2) p.1 : Int) := by
      omega
    rw [hcast]
    push_cast
    ring
  rw [hpt, wsum_int_add]

/-- **C7 counterexample** — the claim states that an accepted swap's
resulting total token count equals the pre-swap total *minus* the undo's
replacements *plus* the high merge's replacements, the two quantities
being the log entry's `low_freq` and `replacements`.  On the table
{"abc</w>": 1, "xy</w>" (as x,y): 2} with applied merges
[("a","b"), ("ab","c")] (each of recorded usage 1) and remaining merge
("x","y"), the accepted swap logs `low_freq = 1`, `replacements = 2`;
the pre-swap size is 5 and the resulting size is 3, but the claimed
formula gives 5 - 1 + 2 = 6; even reading "replacements performed by
undoing" as the actual expansion count 0, it gives 5 - 0 + 2 = 7. -/
theorem C7_counterexample :
    (refine_merges_word_counts [(["abc", EOW], 1), (["x", "y", EOW], 2)]
        [("a", "b"), ("ab", "c")] [("x", "y")]
        [(("a", "b"), 1), (("ab", "c"), 1)]).2.1 =
      [⟨1, ("a", "b"), 1, ("x", "y"), 2, 2⟩] ∧
    corpusSize (refine_merges_word_counts [(["abc", EOW], 1), (["x", "y", EOW], 2)]
        [("a", "b"), ("ab", "c")] [("x", "y")]
        [(("a", "b"), 1), (("ab", "c"), 1)]).1 = 3 ∧
    corpusSize [(["abc", EOW], 1), (["x", "y", EOW], 2)] = 5 ∧
    mergedOccurrences ("a", "b") [(["abc", EOW], 1), (["x", "y", EOW], 2)] = 0 ∧
    ¬ (corpusSize (refine_merges_word_counts [(["abc", EOW], 1), (["x", "y", EOW], 2)]
        [("a", "b"), ("ab", "c")] [("x", "y")]
        [(("a", "b"), 1), (("ab", "c"), 1)]).1 =
      corpusSize [(["abc", EOW], 1), (["x", "y", EOW], 2)] - 1 + 2) ∧
    ¬ (corpusSize (refine_merges_word_counts [(["abc", EOW], 1), (["x", "y", EOW], 2)]
        [("a", "b"), ("ab", "c")] [("x", "y")]
        [(("a", "b"), 1), (("ab", "c"), 1)]).1 =
      corpusSize [(["abc", EOW], 1), (["x", "y", EOW], 2)] -
        (mergedOccurrences ("a", "b") [(["abc", EOW], 1), (["x", "y", EOW], 2)] : Int) + 2) := by
  decide

/-- **C7 as amended** — refinement swap accounting with the correct
signs: an accepted swap rewrites the table to the result of undoing the
low merge and applying the high merge, appending a log entry whose
`replacements` field is exactly the high merge's weighted replacement
count; the resulting table's total token count equals the pre-swap
total *plus* the weighted expansions performed by the undo *minus* that
replacement count.  (The entry's `low_freq` is the low merge's original
usage, which need not equal the undo expansion count.) -/
theorem C7_amended_swap_accounting (wc : WordCountTable) (lowm : Merge) (lowf : Nat)
    (hi : Merge × Nat) (rest rem rem2 : List (Merge × Nat)) (fam : List Merge)
    (num : Nat) (log : List RefineLogEntry)
    (hdrop : rem.dropWhile (fun p => p.2 ≤ lowf) = hi :: rem2)
    (hacc : 0 < (applyMergeStep (undo_merge_word_counts wc lowm) hi.1.1 hi.1.2).2) :
    refineLoop ((lowm, lowf) :: rest) rem wc fam num log =
      refineLoop rest rem2
        (applyMergeStep (undo_merge_word_counts wc lowm) hi.1.1 hi.1.2).1
        (removeFirst fam lowm ++ [hi.1]) (num + 1)
        (log ++ [⟨num, lowm, lowf, hi.1, hi.2,
          (applyMergeStep (undo_merge_word_counts wc lowm) hi.1.1 hi.1.2).2⟩]) ∧
    corpusSize (applyMergeStep (undo_merge_word_counts wc lowm) hi.1.1 hi.1.2).1 =
      corpusSize wc + (mergedOccurrences lowm wc : Int) -
        ((applyMergeStep (undo_merge_word_counts wc lowm) hi.1.1 hi.1.2).2 : Int) := by
  constructor
  · rw [refineLoop, hdrop]
    simp only [if_pos hacc]
  · rw [corpusSize_applyMergeStep, corpusSize_undo]

/-- Witness for C7 as amended: table {"ab</w>": 1, "cd</w>" (as c,d): 3},
low merge ("a","b") of usage 1, high merge ("c","d") of frequency 3. -/
theorem C7_amended_swap_accounting_witness :
    refineLoop [(("a", "b"), 1)] [(("c", "d"), 3)] [(["ab", EOW], 1), (["c", "d", EOW], 3)]
        [("a", "b")] 1 [] =
      refineLoop [] []
        (applyMergeStep
          (undo_merge_word_counts [(["ab", EOW], 1), (["c", "d", EOW], 3)] ("a", "b"))
          "c" "d").1
        (removeFirst [("a", "b")] ("a", "b") ++ [("c", "d")]) 2
        ([] ++ [⟨1, ("a", "b"), 1, ("c", "d"), 3,
          (applyMergeStep
            (undo_merge_word_counts [(["ab", EOW], 1), (["c", "d", EOW], 3)] ("a", "b"))
            "c" "d").2⟩]) ∧
    corpusSize (applyMergeStep
        (undo_merge_word_counts [(["ab", EOW], 1), (["c", "d", EOW], 3)] ("a", "b"))
        "c" "d").1 =
      corpusSize [(["ab", EOW], 1), (["c", "d", EOW], 3)] +
        (mergedOccurrences ("a", "b") [(["ab", EOW], 1), (["c", "d", EOW], 3)] : Int) -
        ((applyMergeStep
          (undo_merge_word_counts [(["ab", EOW], 1), (["c", "d", EOW], 3)] ("a", "b"))
          "c" "d").2 : Int) :=
  C7_amended_swap_accounting [(["ab", EOW], 1), (["c", "d", EOW], 3)] ("a", "b") 1
    (("c", "d"), 3) [] [(("c", "d"), 3)] [] [("a", "b")] 1 [] (by decide) (by decide)

/-! ## Refinement: applied-list length preservation (C9) -/

theorem refineLoop_drop_nil (lowm : Merge) (lowf : Nat) (rest rem : List (Merge × Nat))
    (wc : WordCountTable) (fam : List Merge) (num : Nat) (log : List RefineLogEntry)
    (h : rem.dropWhile (fun p => p.2 ≤ lowf) = []) :
    refineLoop ((lowm, lowf) :: rest) rem wc fam num log = (wc, log, fam) := by
  rw [refineLoop, h]

theorem refineLoop_accept (wc : WordCountTable) (lowm : Merge) (lowf : Nat)
    (hi : Merge × Nat) (rest rem rem2 : List (Merge × Nat)) (fam : List Merge)
    (num : Nat) (log : List RefineLogEntry)
    (hdrop : rem.dropWhile (fun p => p.2 ≤ lowf) = hi :: rem2)
    (hacc : 0 < (applyMergeStep (undo_merge_word_counts wc lowm) hi.1.1 hi.1.2).2) :
    refineLoop ((lowm, lowf) :: rest) rem wc fam num log =
      refineLoop rest rem2
        (applyMergeStep (undo_merge_word_counts wc lowm) hi.1.1 hi.1.2).1
        (removeFirst fam lowm ++ [hi.1]) (num + 1)
        (log ++ [⟨num, lowm, lowf, hi.1, hi.2,
          (applyMergeStep (undo_merge_word_counts wc lowm) hi.1.1 hi.1.2).2⟩]) := by
  rw [refineLoop, hdrop]
  simp only [if_pos hacc]

theorem refineLoop_reject (wc : WordCountTable) (lowm : Merge) (lowf : Nat)
    (hi : Merge × Nat) (rest rem rem2 : List (Merge × Nat)) (fam : List Merge)
    (num : Nat) (log : List RefineLogEntry)
    (hdrop : rem.dropWhile (fun p => p.2 ≤ lowf) = hi :: rem2)
    (hrej : ¬ 0 < (applyMergeStep (undo_merge_word_counts wc lowm) hi.1.1 hi.1.2).2) :
    refineLoop ((lowm, lowf) :: rest) rem wc fam num log =
      refineLoop rest rem2 wc fam num log := by
  rw [refineLoop, hdrop]
  simp only [if_neg hrej]

/-- The log accumulator only collects entries: the run is otherwise
independent of it. -/
theorem refineLoop_shift :
    ∀ (asr rem : List (Merge × Nat)) (wc : WordCountTable) (fam : List Merge) (num : Nat)
      (log : List RefineLogEntry),
      refineLoop asr rem wc fam num log =
        ((refineLoop asr rem wc fam num []).1,
         log ++ (refineLoop asr rem wc fam num []).2.1,
         (refineLoop asr rem wc fam num []).2.2)
  | [], rem, wc, fam, num, log => by simp [refineLoop]
  | (lowm, lowf) :: rest, rem, wc, fam, num, log => by
    cases hd : rem.dropWhile (fun p => p.2 ≤ lowf) with
    | nil =>
      rw [refineLoop_drop_nil lowm lowf rest rem wc fam num log hd,
        refineLoop_drop_nil lowm lowf rest rem wc fam num [] hd]
      simp
    | cons hi rem2 =>
      by_cases hacc : 0 < (applyMergeStep (undo_merge_word_counts wc lowm) hi.1.1 hi.1.2).2
      · have h1 := refineLoop_shift rest rem2
          (applyMergeStep (undo_merge_word_counts wc lowm) hi.1.1 hi.1.2).1
          (removeFirst fam lowm ++ [hi.1]) (num + 1)
          (log ++ [⟨num, lowm, lowf, hi.1, hi.2,
            (applyMergeStep (undo_merge_word_counts wc lowm) hi.1.1 hi.1.2).2⟩])
        have h2 := refineLoop_shift rest rem2
          (applyMergeStep (undo_merge_word_counts wc lowm) hi.1.1 hi.1.2).1
          (removeFirst fam lowm ++ [hi.1]) (num + 1)
          ([] ++ [⟨num, lowm, lowf, hi.1, hi.2,
            (applyMergeStep (undo_merge_word_counts wc lowm) hi.1.1 hi.1.2).2⟩])
        rw [refineLoop_accept wc lowm lowf hi rest rem rem2 fam num log hd hacc,
          refineLoop_accept wc lowm lowf hi rest rem rem2 fam num [] hd hacc, h1, h2]
        simp
      · rw [refineLoop_reject wc lowm lowf hi rest rem rem2 fam num log hd hacc,
          refineLoop_reject wc lowm lowf hi rest rem rem2 fam num [] hd hacc,
          refineLoop_shift rest rem2 wc fam num log]

theorem countMerge_cons (m x : Merge) (l : List Merge) :
    countMerge m (x :: l) = countMerge m l + (if x = m then 1 else 0) := by
  simp [countMerge, List.countP_cons]

theorem countMerge_append (m : Merge) (l₁ l₂ : List Merge) :
    countMerge m (l₁ ++ l₂) = countMerge m l₁ + countMerge m l₂ := by
  simp [countMerge, List.countP_append]

theorem mem_of_countMerge_pos {m : Merge} {l : List Merge} (h : 1 ≤ countMerge m l) :
    m ∈ l := by
  unfold countMerge at h
  obtain ⟨a, ha, hpa⟩ := List.countP_pos_iff.mp h
  simp only [decide_eq_true_eq] at hpa
  exact hpa ▸ ha

theorem countMerge_nil (m : Merge) : countMerge m [] = 0 := rfl

theorem countMerge_removeFirst (m m' : Merge) :
    ∀ (l : List Merge), m ∈ l →
      countMerge m' (removeFirst l m) + (if m = m' then 1 else 0) = countMerge m' l
  | [], h => absurd h (List.not_mem_nil m)
  | x :: rest, h => by
    by_cases hx : x = m
    · rw [removeFirst, if_pos hx, countMerge_cons, hx]
    · have hmem : m ∈ rest := by
        rcases List.mem_cons.1 h with h1 | h1
        · exact absurd h1.symm hx
        · exact h1
      rw [removeFirst, if_neg hx, countMerge_cons, countMerge_cons]
      have := countMerge_removeFirst m m' rest hmem
      omega

theorem removeFirst_length (m : Merge) :
    ∀ (l : List Merge), m ∈ l → (removeFirst l m).length + 1 = l.length
  | [], h => absurd h (List.not_mem_nil m)
  | x :: rest, h => by
    by_cases hx : x = m
    · rw [removeFirst, if_pos hx]
      rfl
    · have hmem : m ∈ rest := by
        rcases List.mem_cons.1 h with h1 | h1
        · exact absurd h1.symm hx
        · exact h1
      rw [removeFirst, if_neg hx]
      have := removeFirst_length m rest hmem
      simp only [List.length_cons]
      omega

theorem lowCount_append (m : Merge) (l₁ l₂ : List RefineLogEntry) :
    lowCount m (l₁ ++ l₂) = lowCount m l₁ + lowCount m l₂ := by
  simp [lowCount, List.countP_append]

theorem lowCount_cons (m : Merge) (e : RefineLogEntry) (l : List RefineLogEntry) :
    lowCount m (e :: l) = lowCount m l + (if e.low_merge = m then 1 else 0) := by
  simp [lowCount, List.countP_cons]

/-- An accepted swap contributes one log entry for its low merge and
continues from the swapped state (log and final list components). -/
theorem refineLoop_accept_parts (wc : WordCountTable) (lowm : Merge) (lowf : Nat)
    (hi : Merge × Nat) (rest rem rem2 : List (Merge × Nat)) (fam : List Merge) (num : Nat)
    (hdrop : rem.dropWhile (fun p => p.2 ≤ lowf) = hi :: rem2)
    (hacc : 0 < (applyMergeStep (undo_merge_word_counts wc lowm) hi.1.1 hi.1.2).2) :
    ∃ e : RefineLogEntry, e.low_merge = lowm ∧
      (refineLoop ((lowm, lowf) :: rest) rem wc fam num []).2.1 =
        e :: (refineLoop rest rem2
          (applyMergeStep (undo_merge_word_counts wc lowm) hi.1.1 hi.1.2).1
          (removeFirst fam lowm ++ [hi.1]) (num + 1) []).2.1 ∧
      (refineLoop ((lowm, lowf) :: rest) rem wc fam num []).2.2 =
        (refineLoop rest rem2
          (applyMergeStep (undo_merge_word_counts wc lowm) hi.1.1 hi.1.2).1
          (removeFirst fam lowm ++ [hi.1]) (num + 1) []).2.2 := by
  refine ⟨⟨num, lowm, lowf, hi.1, hi.2,
    (applyMergeStep (undo_merge_word_counts wc lowm) hi.1.1 hi.1.2).2⟩, rfl, ?_, ?_⟩
  · rw [refineLoop_accept wc lowm lowf hi rest rem rem2 fam num [] hdrop hacc]
    rw [refineLoop_shift]
    simp
  · rw [refineLoop_accept wc lowm lowf hi rest rem rem2 fam num [] hdrop hacc]
    rw [refineLoop_shift]

/-- If every merge is removed as a low merge at most as often as it
occurs in the current applied list, each accepted swap finds its low
merge present, so the list's length is preserved by the loop. -/
theorem refineLoop_fam_length :
    ∀ (asr rem : List (Merge × Nat)) (wc : WordCountTable) (num : Nat) (fam : List Merge),
      (∀ m : Merge,
        lowCount m (refineLoop asr rem wc fam num []).2.1 ≤ countMerge m fam) →
      (refineLoop asr rem wc fam num []).2.2.length = fam.length
  | [], rem, wc, num, fam, _ => rfl
  | (lowm, lowf) :: rest, rem, wc, num, fam, h => by
    cases hd : rem.dropWhile (fun p => p.2 ≤ lowf) with
    | nil =>
      rw [refineLoop_drop_nil lowm lowf rest rem wc fam num [] hd]
    | cons hi rem2 =>
      by_cases hacc : 0 < (applyMergeStep (undo_merge_word_counts wc lowm) hi.1.1 hi.1.2).2
      · obtain ⟨e, helow, hlog, hfam⟩ :=
          refineLoop_accept_parts wc lowm lowf hi rest rem rem2 fam num hd hacc
        rw [hlog] at h
        rw [hfam]
        have hmem : lowm ∈ fam := by
          have h1 := h lowm
          rw [lowCount_cons, helow] at h1
          simp at h1
          exact mem_of_countMerge_pos (by omega)
        have hIH : ∀ m : Merge,
            lowCount m (refineLoop rest rem2
              (applyMergeStep (undo_merge_word_counts wc lowm) hi.1.1 hi.1.2).1
              (removeFirst fam lowm ++ [hi.1]) (num + 1) []).2.1 ≤
              countMerge m (removeFirst fam lowm ++ [hi.1]) := by
          intro m
          have h1 := h m
          rw [lowCount_cons, helow] at h1
          have hrm := countMerge_removeFirst lowm m fam hmem
          rw [countMerge_append, countMerge_cons, countMerge_nil]
          by_cases hm : lowm = m
          · rw [if_pos hm] at h1 hrm
            omega
          · rw [if_neg hm] at h1 hrm
            omega
        have hlen := refineLoop_fam_length rest rem2
          (applyMergeStep (undo_merge_word_counts wc lowm) hi.1.1 hi.1.2).1 (num + 1)
          (removeFirst fam lowm ++ [hi.1]) hIH
        rw [hlen, List.length_append, List.length_singleton]
        have := removeFirst_length lowm fam hmem
        omega
      · rw [refineLoop_reject wc lowm lowf hi rest rem rem2 fam num [] hd hacc] at h ⊢
        exact refineLoop_fam_length rest rem2 wc num fam h

/-- **C9** — applied-list length preservation in refinement: when every
merge recorded as the removed low merge of a swap occurs in the input
applied-merge list at least as many times as it is accepted for
swapping, the final applied-merge list has exactly the input list's
length (each accepted swap removes one entry and appends one; rejected
swaps leave the list unchanged). -/
theorem C9_applied_length_preserved (t : WordCountTable)
    (applied remaining : List Merge) (freqs : List (Merge × Nat))
    (h : ∀ e ∈ (refine_merges_word_counts t applied remaining freqs).2.1,
      lowCount e.low_merge (refine_merges_word_counts t applied remaining freqs).2.1 ≤
        countMerge e.low_merge applied) :
    (refine_merges_word_counts t applied remaining freqs).2.2.length = applied.length := by
  unfold refine_merges_word_counts at h ⊢
  refine refineLoop_fam_length _ _ t 1 applied (fun m => ?_)
  by_cases hz : 1 ≤ lowCount m (refineLoop (sortAscByFreq freqs)
      (sortDescByFreq ((get_bigram_frequencies_from_counts t).filter
        (fun p => p.1 ∈ remaining))) t applied 1 []).2.1
  · unfold lowCount at hz
    obtain ⟨e, he, hpe⟩ := List.countP_pos_iff.mp hz
    simp only [decide_eq_true_eq] at hpe
    have := h e he
    rw [hpe] at this
    exact this
  · omega

/-- Witness for C9: the one-swap run on table {"ab</w>": 1, "cd</w>"
(as c,d): 3}; the single accepted swap removes ("a","b"), which occurs
once in the input applied list, and the final list keeps length 1. -/
theorem C9_applied_length_preserved_witness :
    (refine_merges_word_counts [(["ab", EOW], 1), (["c", "d", EOW], 3)] [("a", "b")]
      [("c", "d")] [(("a", "b"), 1)]).2.2.length = ([("a", "b")] : List Merge).length :=
  C9_applied_length_preserved [(["ab", EOW], 1), (["c", "d", EOW], 3)] [("a", "b")]
    [("c", "d")] [(("a", "b"), 1)] (by decide)

/-! ## Empty-corpus behavior (C4) -/

theorem applyMergesLoop_nil_table :
    ∀ (ms : List Merge) (size : Int), (applyMergesLoop [] size ms).1 = []
  | [], _ => rfl
  | m :: rest, size => by
    simp only [applyMergesLoop]
    exact applyMergesLoop_nil_table rest _

theorem refineLoop_nil_rem :
    ∀ (asr : List (Merge × Nat)) (wc : WordCountTable) (fam : List Merge) (num : Nat)
      (log : List RefineLogEntry),
      refineLoop asr [] wc fam num log = (wc, log, fam)
  | [], _, _, _, _ => rfl
  | (lowm, lowf) :: rest, wc, fam, num, log =>
    refineLoop_drop_nil lowm lowf rest [] wc fam num log rfl

theorem refine_nil_table (applied remaining : List Merge) (freqs : List (Merge × Nat)) :
    refine_merges_word_counts [] applied remaining freqs = ([], [], applied) := by
  unfold refine_merges_word_counts
  exact refineLoop_nil_rem (sortAscByFreq freqs) [] applied 1 []

/-- **C4** — empty-corpus behavior of the code: no `EmptyCorpusError`
exists anywhere in the repository.  On a corpus with zero characters the
training pipeline completes normally and produces (empty) output, and
the companion true-counts tool proceeds all the way to the
compression-utility division, where it fails with `ZeroDivisionError`
(`char_count == 0`) rather than failing explicitly beforehand. -/
theorem C4_empty_corpus_behavior (ms all : List Merge) (n : Nat) :
    true_counts_pipeline [] ms = Except.error PipelineError.zeroDivision ∧
    char_count [] = 0 ∧
    tokenize_characters [] = [] ∧
    (train_core [] all n).1 = "" := by
  refine ⟨rfl, rfl, rfl, ?_⟩
  have h0 : get_initial_word_counts (tokenize_characters []) = [] := rfl
  unfold train_core apply_merges_word_counts
  simp only [h0, applyMergesLoop_nil_table, refine_nil_table]
  rfl

end AdaptBPE
